import Mathlib

/-!
Verification of the Raydium SDK V2 client core, shallowly embedded from
`src/common/txTool/txTool.ts` and `src/raydium/clmm/utils/pool.ts`.

Conventions of the embedding:
* public keys and transaction object identities are modelled as natural numbers;
* `BN` big integers are modelled as `Int` (they are arbitrary precision);
* helpers of this repository that are not part of the provided sources
  (`txUtils.ts`, `tickarrayBitmap.ts`, `tickQuery.ts`, `math.ts`, constants)
  are modelled from the specification and marked `Modelled from the spec:`.
-/

/- ## Transaction instruction model (txTool.ts) -/

/-- One account reference inside an instruction (`keys` entry of a
`TransactionInstruction`): a public key plus its signer flag.  The writable
flag plays no role in the verified properties and is elided. -/
structure AccountMeta where
  pubkey : Nat
  isSigner : Bool
deriving DecidableEq, Repr

/-- A `TransactionInstruction`.  `uid` models JavaScript object identity:
the splitters compare instructions with `!==`, which is reference equality;
two distinct instruction objects are modelled by distinct `uid`s. -/
structure TransactionInstruction where
  uid : Nat
  programId : Nat
  keys : List AccountMeta
  dataLen : Nat
deriving DecidableEq, Repr

/-- All account keys referenced by one instruction (program id plus key list). -/
def instrAccountKeys (i : TransactionInstruction) : List Nat :=
  i.programId :: i.keys.map (·.pubkey)

/-- The signer keys referenced by one instruction. -/
def instrSignerKeys (i : TransactionInstruction) : List Nat :=
  (i.keys.filter (·.isSigner)).map (·.pubkey)

/-- Distinct account keys of a message: fee payer, then every program id and
account key of the instructions, deduplicated. -/
def txAccountKeys (payer : Nat) (ins : List TransactionInstruction) : List Nat :=
  (payer :: (ins.map instrAccountKeys).flatten).dedup

/-- Distinct required signers of a message: the fee payer plus every signer
key of the instructions. -/
def txSignerKeys (payer : Nat) (ins : List TransactionInstruction) : List Nat :=
  (payer :: (ins.map instrSignerKeys).flatten).dedup

/-- Serialized bytes contributed by one compiled instruction: program-id
index (1), key count (1), one index per key, data length (1), data bytes. -/
def instrBytes (i : TransactionInstruction) : Nat :=
  3 + i.keys.length + i.dataLen

/-- The ledger's hard transaction size limit (bytes). -/
def PACKET_DATA_SIZE : Nat := 1232

/-- Modelled from the spec: `checkLegacyTxSize` of `txUtils.ts` is not under
`src/`; the spec states that the splitter is "verified by actual
serialization, not estimation".  This is the serialized size of a legacy
transaction: signature array (count byte + 64 bytes per required signer),
message header (3), account-key array (count byte + 32 bytes per distinct
key), recent blockhash (32), instruction array (count byte + per-instruction
bytes).  The required-signature count is determined by the message itself
(fee payer plus signer keys of the instructions). -/
def legacyTxBytes (payer : Nat) (ins : List TransactionInstruction) : Nat :=
  1 + 64 * (txSignerKeys payer ins).length +
  3 + 1 + 32 * (txAccountKeys payer ins).length + 32 +
  1 + (ins.map instrBytes).sum

/-- Modelled from the spec: the legacy size check of the splitter — the
serialized transaction must stay within the hard limit. -/
def checkLegacyTxSize (payer : Nat) (ins : List TransactionInstruction) : Bool :=
  legacyTxBytes payer ins ≤ PACKET_DATA_SIZE

/-- Distinct non-signer account keys resolvable through the lookup table:
these cost one index byte instead of a 32-byte static entry. -/
def v0LookupKeys (table : List Nat) (ins : List TransactionInstruction) : List Nat :=
  ((ins.map fun i =>
      (i.keys.filter fun k => !k.isSigner && table.contains k.pubkey).map (·.pubkey)).flatten).dedup

/-- Distinct static account keys of a v0 message: fee payer, program ids,
signer keys, and any key not found in the lookup table. -/
def v0StaticKeys (payer : Nat) (table : List Nat) (ins : List TransactionInstruction) : List Nat :=
  (payer :: (ins.map fun i =>
      i.programId ::
        ((i.keys.filter fun k => k.isSigner || !table.contains k.pubkey).map (·.pubkey))).flatten).dedup

/-- Modelled from the spec: `checkV0TxSize` of `txUtils.ts` is not under
`src/`.  Serialized size of a lookup-table-compacted v0 transaction:
signatures, header, static keys, blockhash, instructions, plus the
address-table-lookup section (table address + index list) when any key is
resolved through the table. -/
def v0TxBytes (payer : Nat) (table : List Nat) (ins : List TransactionInstruction) : Nat :=
  1 + 64 * (txSignerKeys payer ins).length +
  3 + 1 + 32 * (v0StaticKeys payer table ins).length + 32 +
  1 + (ins.map instrBytes).sum +
  1 + 34 * min 1 (v0LookupKeys table ins).length + (v0LookupKeys table ins).length

/-- Modelled from the spec: the v0 size check of the splitter. -/
def checkV0TxSize (payer : Nat) (table : List Nat) (ins : List TransactionInstruction) : Bool :=
  v0TxBytes payer table ins ≤ PACKET_DATA_SIZE

/-- Modelled from the spec: `addComputeBudget` of `txUtils.ts` is not under
`src/`; a compute-budget configuration turns into a fixed pair of
compute-budget program instructions (unit limit and unit price), which carry
no signer keys. -/
def computeBudgetIns : List TransactionInstruction :=
  [⟨1000000001, 900, [], 5⟩, ⟨1000000002, 900, [], 9⟩]

/-- `computeBudgetData.instructions` of the splitters: the compute-budget
instruction pair when a configuration was supplied, `[]` otherwise. -/
def cbInsOf (hasCfg : Bool) : List TransactionInstruction :=
  if hasCfg then computeBudgetIns else []

/- ## The size-constrained splitters (txTool.ts 858-953 and 1112-1255) -/

/-- One sub-transaction produced by a splitter: the queued instructions and
whether the flush-time check decided to prefix the compute-budget
instructions. -/
structure SubTx where
  queue : List TransactionInstruction
  withCompute : Bool
deriving DecidableEq, Repr

/-- The instructions actually placed in a produced sub-transaction. -/
def subTxIns (hasCfg : Bool) (t : SubTx) : List TransactionInstruction :=
  if t.withCompute then cbInsOf hasCfg ++ t.queue else t.queue

/-- The two size decisions that differ between `sizeCheckBuild` (legacy) and
`sizeCheckBuildV0`: `addOk` is the disjunction of the two add-time size
checks applied to `queue ++ [item]`, `flushWith` is the flush-time decision
whether the compute-budget prefix still fits. -/
structure SplitChecks where
  addOk : List TransactionInstruction → Bool
  flushWith : List TransactionInstruction → Bool

/-- The shared loop of `sizeCheckBuild` / `sizeCheckBuildV0`
(txTool.ts 878-946 resp. 1156-1245): fold over the accumulated
instructions, growing `q` (`instructionQueue`) while the item is not the
pending split point, the queue holds fewer than 12 instructions and the
size checks pass; otherwise flush the queue as one sub-transaction (error
when the queue is empty) and restart it from the item, advancing the split
cursor when the item was the pending split point.  A trailing non-empty
queue is flushed at the end.  The signer bookkeeping of the source
(`allSigners`) is derived data not touched by the verified claims and is
elided; the flush-time size check derives the signature count from the
message itself (see `legacyTxBytes`). -/
def sizeCheckGo (C : SplitChecks) (splitIns : List TransactionInstruction) :
    List TransactionInstruction → List TransactionInstruction → Nat →
    Except String (List SubTx)
  | [], q, _ =>
    .ok (if q.isEmpty then [] else [{ queue := q, withCompute := C.flushWith q }])
  | item :: rest, q, idx =>
    if splitIns.get? idx ≠ some item ∧ q.length < 12 ∧ C.addOk (q ++ [item]) = true then
      sizeCheckGo C splitIns rest (q ++ [item]) idx
    else if q.isEmpty then .error "item ins too big"
    else
      match sizeCheckGo C splitIns rest [item]
          (idx + if splitIns.get? idx = some item then 1 else 0) with
      | .ok txs => .ok ({ queue := q, withCompute := C.flushWith q } :: txs)
      | .error e => .error e

/-- The checks of the legacy splitter `sizeCheckBuild`: add an item while
`checkLegacyTxSize` passes with or without the compute-budget prefix
(txTool.ts 888-893); at flush, prefix the compute-budget instructions iff
the prefixed transaction passes the check (txTool.ts 900-912, 932-944). -/
def legacyChecks (payer : Nat) (hasCfg : Bool) : SplitChecks where
  addOk := fun l => checkLegacyTxSize payer (cbInsOf hasCfg ++ l) || checkLegacyTxSize payer l
  flushWith := fun q => checkLegacyTxSize payer (cbInsOf hasCfg ++ q)

/-- The checks of the v0 splitter `sizeCheckBuildV0` (txTool.ts 1161-1165,
1177-1200, 1220-1242); the flush-time decision additionally requires a
compute-budget configuration to be present. -/
def v0Checks (payer : Nat) (table : List Nat) (hasCfg : Bool) : SplitChecks where
  addOk := fun l => checkV0TxSize payer table (cbInsOf hasCfg ++ l) || checkV0TxSize payer table l
  flushWith := fun q => hasCfg && checkV0TxSize payer table (cbInsOf hasCfg ++ q)

/-- `TxBuilder.sizeCheckBuild` (txTool.ts 858-953), restricted to the
splitting of `this.allInstructions` into sub-transactions. -/
def sizeCheckBuild (payer : Nat) (hasCfg : Bool)
    (splitIns allIns : List TransactionInstruction) : Except String (List SubTx) :=
  sizeCheckGo (legacyChecks payer hasCfg) splitIns allIns [] 0

/-- `TxBuilder.sizeCheckBuildV0` (txTool.ts 1112-1255), restricted to the
splitting of `this.allInstructions` into sub-transactions; `table` is the
resolved lookup-table key set. -/
def sizeCheckBuildV0 (payer : Nat) (table : List Nat) (hasCfg : Bool)
    (splitIns allIns : List TransactionInstruction) : Except String (List SubTx) :=
  sizeCheckGo (v0Checks payer table hasCfg) splitIns allIns [] 0

/- ## Generic facts about the splitter loop -/

lemma dedup_length_le_of_subset {α : Type} [DecidableEq α] {a b : List α}
    (h : a ⊆ b) : a.dedup.length ≤ b.dedup.length := by
  rw [← List.card_toFinset, ← List.card_toFinset]
  exact Finset.card_le_card fun x hx => by
    rw [List.mem_toFinset] at hx ⊢; exact h hx

lemma cons_flatten_subset {α β : Type} (p : α) (f : β → List α) (pre l : List β) :
    (p :: (l.map f).flatten) ⊆ (p :: ((pre ++ l).map f).flatten) := by
  rw [List.map_append, List.flatten_append]
  intro x hx
  rcases List.mem_cons.mp hx with h | h
  · exact List.mem_cons.mpr (Or.inl h)
  · exact List.mem_cons.mpr (Or.inr (List.mem_append_right _ h))

lemma flatten_subset_of_append {α β : Type} (f : β → List α) (pre l : List β) :
    ((l.map f).flatten) ⊆ (((pre ++ l).map f).flatten) := by
  rw [List.map_append, List.flatten_append]
  exact fun x hx => List.mem_append_right _ hx

/-- Serialized legacy size only grows when instructions are prepended. -/
lemma legacyTxBytes_mono (payer : Nat) (pre l : List TransactionInstruction) :
    legacyTxBytes payer l ≤ legacyTxBytes payer (pre ++ l) := by
  have h1 : (txSignerKeys payer l).length ≤ (txSignerKeys payer (pre ++ l)).length :=
    dedup_length_le_of_subset (cons_flatten_subset payer instrSignerKeys pre l)
  have h2 : (txAccountKeys payer l).length ≤ (txAccountKeys payer (pre ++ l)).length :=
    dedup_length_le_of_subset (cons_flatten_subset payer instrAccountKeys pre l)
  have h3 : (l.map instrBytes).sum ≤ ((pre ++ l).map instrBytes).sum := by
    rw [List.map_append, List.sum_append]; exact Nat.le_add_left _ _
  unfold legacyTxBytes
  omega

/-- Serialized v0 size only grows when instructions are prepended. -/
lemma v0TxBytes_mono (payer : Nat) (table : List Nat)
    (pre l : List TransactionInstruction) :
    v0TxBytes payer table l ≤ v0TxBytes payer table (pre ++ l) := by
  have h1 : (txSignerKeys payer l).length ≤ (txSignerKeys payer (pre ++ l)).length :=
    dedup_length_le_of_subset (cons_flatten_subset payer instrSignerKeys pre l)
  have h2 : (v0StaticKeys payer table l).length ≤ (v0StaticKeys payer table (pre ++ l)).length :=
    dedup_length_le_of_subset (cons_flatten_subset payer _ pre l)
  have h3 : (l.map instrBytes).sum ≤ ((pre ++ l).map instrBytes).sum := by
    rw [List.map_append, List.sum_append]; exact Nat.le_add_left _ _
  have h4 : (v0LookupKeys table l).length ≤ (v0LookupKeys table (pre ++ l)).length :=
    dedup_length_le_of_subset (flatten_subset_of_append _ pre l)
  have h5 : min 1 (v0LookupKeys table l).length ≤ min 1 (v0LookupKeys table (pre ++ l)).length :=
    min_le_min (le_refl 1) h4
  unfold v0TxBytes
  omega

lemma get?_eq_head?_drop {α : Type} : ∀ (l : List α) (n : Nat), l.get? n = (l.drop n).head? := by
  intro l
  induction l with
  | nil => intro n; cases n <;> simp
  | cons a l ih =>
    intro n
    cases n with
    | zero => simp
    | succ n => simp [ih n]

/-- The queues of the produced sub-transactions concatenate exactly to the
pending queue followed by the remaining input: no instruction is duplicated
or dropped by the splitter. -/
lemma sizeCheckGo_join (C : SplitChecks) (splitIns : List TransactionInstruction) :
    ∀ (rest q : List TransactionInstruction) (idx : Nat) (txs : List SubTx),
      sizeCheckGo C splitIns rest q idx = .ok txs →
      (txs.map SubTx.queue).flatten = q ++ rest := by
  intro rest
  induction rest with
  | nil =>
    intro q idx txs h
    simp only [sizeCheckGo] at h
    by_cases hq : q.isEmpty
    · rw [if_pos hq] at h
      injection h with h
      subst h
      simp [List.isEmpty_iff.mp hq]
    · rw [if_neg hq] at h
      injection h with h
      subst h
      simp
  | cons item rest ih =>
    intro q idx txs h
    simp only [sizeCheckGo] at h
    split at h
    · have hrec := ih (q ++ [item]) idx txs h
      rw [hrec, List.append_assoc]
      simp
    · split at h
      · exact absurd h (by simp)
      · cases hrec : sizeCheckGo C splitIns rest [item]
            (idx + if splitIns.get? idx = some item then 1 else 0) with
        | ok txs' =>
          rw [hrec] at h
          injection h with h
          subst h
          have := ih [item] _ txs' hrec
          simp [this]
        | error e => rw [hrec] at h; cases h

/-- Size invariant of the splitter loop: if the pending queue fits (or is
empty), every instruction of the remaining input fits alone, and the two
checks really witness a fitting transaction, then every produced
sub-transaction fits — with its compute-budget prefix when the flush-time
check decided to keep it. -/
lemma sizeCheckGo_fits (C : SplitChecks) (splitIns : List TransactionInstruction)
    (cb : List TransactionInstruction) (fits : List TransactionInstruction → Prop)
    (Hadd : ∀ l, C.addOk l = true → fits l)
    (Hflush : ∀ l, C.flushWith l = true → fits (cb ++ l)) :
    ∀ (rest q : List TransactionInstruction) (idx : Nat) (txs : List SubTx),
      sizeCheckGo C splitIns rest q idx = .ok txs →
      (q = [] ∨ fits q) → (∀ i ∈ rest, fits [i]) →
      ∀ t ∈ txs, fits (if t.withCompute then cb ++ t.queue else t.queue) := by
  intro rest
  induction rest with
  | nil =>
    intro q idx txs h hq _ t ht
    simp only [sizeCheckGo] at h
    by_cases hqe : q.isEmpty
    · rw [if_pos hqe] at h
      injection h with h
      subst h
      simp at ht
    · rw [if_neg hqe] at h
      injection h with h
      subst h
      simp at ht
      subst ht
      simp only []
      by_cases hf : C.flushWith q = true
      · simp [hf, Hflush q hf]
      · have hq' : fits q := hq.resolve_left (by simpa using hqe)
        simp only [if_neg hf]
        exact hq'
  | cons item rest ih =>
    intro q idx txs h hq hr t ht
    simp only [sizeCheckGo] at h
    split at h
    next hcond =>
      exact ih (q ++ [item]) idx txs h (Or.inr (Hadd _ hcond.2.2))
        (fun i hi => hr i (List.mem_cons_of_mem _ hi)) t ht
    next =>
      split at h
      · exact absurd h (by simp)
      next hqe =>
        cases hrec : sizeCheckGo C splitIns rest [item]
            (idx + if splitIns.get? idx = some item then 1 else 0) with
        | ok txs' =>
          rw [hrec] at h
          injection h with h
          subst h
          rcases List.mem_cons.mp ht with rfl | ht'
          · by_cases hf : C.flushWith q = true
            · simp [hf, Hflush q hf]
            · have hq' : fits q := hq.resolve_left (by simpa using hqe)
              simp only [if_neg hf]
              exact hq'
          · exact ih [item] _ txs' hrec (Or.inr (hr item (List.mem_cons_self _ _)))
              (fun i hi => hr i (List.mem_cons_of_mem _ hi)) t ht'
        | error e => rw [hrec] at h; cases h

/-- The splitter never accumulates more than 12 instructions in one
sub-transaction (compute-budget prefix not counted). -/
lemma sizeCheckGo_count (C : SplitChecks) (splitIns : List TransactionInstruction) :
    ∀ (rest q : List TransactionInstruction) (idx : Nat) (txs : List SubTx),
      sizeCheckGo C splitIns rest q idx = .ok txs →
      q.length ≤ 12 → ∀ t ∈ txs, t.queue.length ≤ 12 := by
  intro rest
  induction rest with
  | nil =>
    intro q idx txs h hq t ht
    simp only [sizeCheckGo] at h
    by_cases hqe : q.isEmpty
    · rw [if_pos hqe] at h; injection h with h; subst h; simp at ht
    · rw [if_neg hqe] at h; injection h with h; subst h
      simp at ht; subst ht; exact hq
  | cons item rest ih =>
    intro q idx txs h hq t ht
    simp only [sizeCheckGo] at h
    split at h
    next hcond =>
      refine ih (q ++ [item]) idx txs h ?_ t ht
      have := hcond.2.1
      simp only [List.length_append, List.length_singleton]
      omega
    next =>
      split at h
      · exact absurd h (by simp)
      next hqe =>
        cases hrec : sizeCheckGo C splitIns rest [item]
            (idx + if splitIns.get? idx = some item then 1 else 0) with
        | ok txs' =>
          rw [hrec] at h
          injection h with h
          subst h
          rcases List.mem_cons.mp ht with rfl | ht'
          · exact hq
          · exact ih [item] _ txs' hrec (by simp) t ht'
        | error e => rw [hrec] at h; cases h

/-- On success, the head of a non-empty pending queue is the head of one of
the produced sub-transactions. -/
lemma sizeCheckGo_head (C : SplitChecks) (splitIns : List TransactionInstruction) :
    ∀ (rest q : List TransactionInstruction) (idx : Nat) (txs : List SubTx),
      sizeCheckGo C splitIns rest q idx = .ok txs →
      q ≠ [] → ∃ t ∈ txs, t.queue.head? = q.head? := by
  intro rest
  induction rest with
  | nil =>
    intro q idx txs h hq
    simp only [sizeCheckGo] at h
    rw [if_neg (by simpa using hq)] at h
    injection h with h
    subst h
    exact ⟨_, List.mem_singleton_self _, rfl⟩
  | cons item rest ih =>
    intro q idx txs h hq
    simp only [sizeCheckGo] at h
    split at h
    next =>
      obtain ⟨t, ht, hh⟩ := ih (q ++ [item]) idx txs h (by simp)
      refine ⟨t, ht, ?_⟩
      rw [hh]
      match q, hq with
      | a :: q', _ => simp
    next =>
      split at h
      · exact absurd h (by simp)
      next =>
        cases hrec : sizeCheckGo C splitIns rest [item]
            (idx + if splitIns.get? idx = some item then 1 else 0) with
        | ok txs' =>
          rw [hrec] at h
          injection h with h
          subst h
          exact ⟨_, List.mem_cons_self _ _, rfl⟩
        | error e => rw [hrec] at h; cases h

/-- Every still-pending split instruction becomes the head instruction of a
produced sub-transaction, provided the pending split points occur in order
within the remaining input (a sublist) and the input has no duplicate
instruction objects. -/
lemma sizeCheckGo_splits (C : SplitChecks) (splitIns : List TransactionInstruction) :
    ∀ (rest q : List TransactionInstruction) (idx : Nat) (txs : List SubTx),
      sizeCheckGo C splitIns rest q idx = .ok txs →
      List.Sublist (splitIns.drop idx) rest →
      (q ++ rest).Nodup →
      ∀ s ∈ splitIns.drop idx, ∃ t ∈ txs, t.queue.head? = some s := by
  intro rest
  induction rest with
  | nil =>
    intro q idx txs h hsub hnd s hs
    rw [List.sublist_nil.mp hsub] at hs
    simp at hs
  | cons item rest ih =>
    intro q idx txs h hsub hnd s hs
    simp only [sizeCheckGo] at h
    cases hd : splitIns.drop idx with
    | nil => rw [hd] at hs; simp at hs
    | cons s0 tl =>
      have hget : splitIns.get? idx = some s0 := by
        rw [get?_eq_head?_drop, hd]; rfl
      rw [hd] at hs hsub
      split at h
      next hcond =>
        have hne : s0 ≠ item := fun he => hcond.1 (by rw [hget, he])
        have hsub' : List.Sublist (s0 :: tl) rest := by
          cases hsub with
          | cons _ h' => exact h'
          | cons₂ _ h' => exact absurd rfl hne
        have hnd' : ((q ++ [item]) ++ rest).Nodup := by
          rw [List.append_assoc]
          simpa using hnd
        exact ih (q ++ [item]) idx txs h (by rw [hd]; exact hsub') hnd' s
          (by rw [hd]; exact hs)
      next =>
        split at h
        · exact absurd h (by simp)
        next hqe =>
          cases hrec : sizeCheckGo C splitIns rest [item]
              (idx + if splitIns.get? idx = some item then 1 else 0) with
          | error e => rw [hrec] at h; cases h
          | ok txs' =>
            rw [hrec] at h
            injection h with h
            subst h
            have hndtail : ([item] ++ rest).Nodup := by
              have hsubr : List.Sublist (item :: rest) (q ++ (item :: rest)) :=
                List.sublist_append_right q (item :: rest)
              simpa using hnd.sublist hsubr
            by_cases hsp : splitIns.get? idx = some item
            · have hs0 : s0 = item := by
                rw [hget] at hsp
                exact Option.some.inj hsp
              subst hs0
              rw [if_pos hsp] at hrec
              have htl : splitIns.drop (idx + 1) = tl := by
                have h2 : splitIns.drop (idx + 1) = (splitIns.drop idx).drop 1 := by
                  rw [List.drop_drop, Nat.add_comm]
                rw [h2, hd]
                rfl
              have hsubtl : List.Sublist tl rest := by
                cases hsub with
                | cons _ h' => exact List.Sublist.trans (List.sublist_cons_self s0 tl) h'
                | cons₂ _ h' => exact h'
              rcases List.mem_cons.mp hs with rfl | hstl
              · obtain ⟨t, ht', hh⟩ := sizeCheckGo_head C splitIns rest [s] (idx + 1) txs'
                  hrec (by simp)
                exact ⟨t, List.mem_cons_of_mem _ ht', by simpa using hh⟩
              · obtain ⟨t, ht', hh⟩ := ih [s0] (idx + 1) txs' hrec
                  (by rw [htl]; exact hsubtl) hndtail s (by rw [htl]; exact hstl)
                exact ⟨t, List.mem_cons_of_mem _ ht', hh⟩
            · rw [if_neg hsp] at hrec
              have hne : s0 ≠ item := fun he => hsp (by rw [hget, he])
              have hsub' : List.Sublist (s0 :: tl) rest := by
                cases hsub with
                | cons _ h' => exact h'
                | cons₂ _ h' => exact absurd rfl hne
              obtain ⟨t, ht', hh⟩ := ih [item] idx txs' (by simpa using hrec)
                (by rw [hd]; exact hsub') hndtail s (by rw [hd]; exact hs)
              exact ⟨t, List.mem_cons_of_mem _ ht', hh⟩

lemma checkLegacyTxSize_le {payer : Nat} {l : List TransactionInstruction}
    (h : checkLegacyTxSize payer l = true) :
    legacyTxBytes payer l ≤ PACKET_DATA_SIZE := by
  simpa [checkLegacyTxSize] using h

lemma checkV0TxSize_le {payer : Nat} {table : List Nat} {l : List TransactionInstruction}
    (h : checkV0TxSize payer table l = true) :
    v0TxBytes payer table l ≤ PACKET_DATA_SIZE := by
  simpa [checkV0TxSize] using h

/- ## Claim C1 -/

/-- A fitting instruction followed by one whose own serialization exceeds
the hard limit. -/
def exA : TransactionInstruction := ⟨1, 100, [], 0⟩

def exB : TransactionInstruction := ⟨2, 100, [], 1300⟩

/-- C1 counterexample: with no compute-budget configuration and no split
points, splitting `[exA, exB]` — where `exB` alone serializes to 1469 bytes
— succeeds and returns a second sub-transaction whose actual serialized
size exceeds the ledger's hard limit of 1232 bytes, refuting the claim that
every produced transaction stays under the limit.  An oversized instruction
is rejected (`"item ins too big"`) only when the queue is empty; in any
later position it is flushed into its own oversized transaction unchecked. -/
theorem claim_C1_counterexample :
    sizeCheckBuild 0 false [] [exA, exB] =
      .ok [⟨[exA], true⟩, ⟨[exB], false⟩] ∧
    PACKET_DATA_SIZE < legacyTxBytes 0 (subTxIns false ⟨[exB], false⟩) := by
  exact ⟨by rfl, by decide⟩

/-- C1 (amended): provided every accumulated instruction fits within the
hard size limit on its own, and the mandatory split points are instruction
objects occurring (in order) in the accumulated duplicate-free instruction
list, both size-constrained splitters `sizeCheckBuild` / `sizeCheckBuildV0`
produce, whenever they succeed, sub-transactions such that (i) each
transaction's actual serialized size stays within the ledger's hard size
limit, (ii) the concatenation of the produced transactions' instruction
queues (compute-budget prefixes excluded) equals the original ordered
instruction list exactly once, (iii) every mandatory split point starts a
new transaction (it is the head instruction of some produced transaction),
and (iv) the compute-budget instructions are prefixed to a sub-transaction
only if the transaction still fits with them. -/
theorem claim_C1 (payer : Nat) (table : List Nat) (hasCfg : Bool)
    (splitIns ins : List TransactionInstruction)
    (hnd : ins.Nodup) (hsub : List.Sublist splitIns ins) :
    (∀ txs, sizeCheckBuild payer hasCfg splitIns ins = .ok txs →
      (∀ i ∈ ins, legacyTxBytes payer [i] ≤ PACKET_DATA_SIZE) →
      ((∀ t ∈ txs, legacyTxBytes payer (subTxIns hasCfg t) ≤ PACKET_DATA_SIZE) ∧
       (txs.map SubTx.queue).flatten = ins ∧
       (∀ s ∈ splitIns, ∃ t ∈ txs, t.queue.head? = some s) ∧
       (∀ t ∈ txs, t.withCompute = true →
         legacyTxBytes payer (cbInsOf hasCfg ++ t.queue) ≤ PACKET_DATA_SIZE))) ∧
    (∀ txs, sizeCheckBuildV0 payer table hasCfg splitIns ins = .ok txs →
      (∀ i ∈ ins, v0TxBytes payer table [i] ≤ PACKET_DATA_SIZE) →
      ((∀ t ∈ txs, v0TxBytes payer table (subTxIns hasCfg t) ≤ PACKET_DATA_SIZE) ∧
       (txs.map SubTx.queue).flatten = ins ∧
       (∀ s ∈ splitIns, ∃ t ∈ txs, t.queue.head? = some s) ∧
       (∀ t ∈ txs, t.withCompute = true →
         v0TxBytes payer table (cbInsOf hasCfg ++ t.queue) ≤ PACKET_DATA_SIZE))) := by
  constructor
  · intro txs h hfit
    have hfits : ∀ t ∈ txs,
        legacyTxBytes payer
          (if t.withCompute then cbInsOf hasCfg ++ t.queue else t.queue) ≤ PACKET_DATA_SIZE := by
      refine sizeCheckGo_fits (legacyChecks payer hasCfg) splitIns (cbInsOf hasCfg)
        (fun l => legacyTxBytes payer l ≤ PACKET_DATA_SIZE) ?_ ?_ ins [] 0 txs h
        (Or.inl rfl) hfit
      · intro l hl
        rcases Bool.or_eq_true_iff.mp hl with hc | hc
        · exact le_trans (legacyTxBytes_mono payer (cbInsOf hasCfg) l) (checkLegacyTxSize_le hc)
        · exact checkLegacyTxSize_le hc
      · intro l hl
        exact checkLegacyTxSize_le hl
    refine ⟨fun t ht => by simpa [subTxIns] using hfits t ht, ?_, ?_, ?_⟩
    · simpa using sizeCheckGo_join (legacyChecks payer hasCfg) splitIns ins [] 0 txs h
    · intro s hs
      exact sizeCheckGo_splits (legacyChecks payer hasCfg) splitIns ins [] 0 txs h
        (by simpa using hsub) (by simpa using hnd) s (by simpa using hs)
    · intro t ht htc
      have := hfits t ht
      rwa [if_pos htc] at this
  · intro txs h hfit
    have hfits : ∀ t ∈ txs,
        v0TxBytes payer table
          (if t.withCompute then cbInsOf hasCfg ++ t.queue else t.queue) ≤ PACKET_DATA_SIZE := by
      refine sizeCheckGo_fits (v0Checks payer table hasCfg) splitIns (cbInsOf hasCfg)
        (fun l => v0TxBytes payer table l ≤ PACKET_DATA_SIZE) ?_ ?_ ins [] 0 txs h
        (Or.inl rfl) hfit
      · intro l hl
        rcases Bool.or_eq_true_iff.mp hl with hc | hc
        · exact le_trans (v0TxBytes_mono payer table (cbInsOf hasCfg) l) (checkV0TxSize_le hc)
        · exact checkV0TxSize_le hc
      · intro l hl
        exact checkV0TxSize_le (Bool.and_eq_true_iff.mp hl).2
    refine ⟨fun t ht => by simpa [subTxIns] using hfits t ht, ?_, ?_, ?_⟩
    · simpa using sizeCheckGo_join (v0Checks payer table hasCfg) splitIns ins [] 0 txs h
    · intro s hs
      exact sizeCheckGo_splits (v0Checks payer table hasCfg) splitIns ins [] 0 txs h
        (by simpa using hsub) (by simpa using hnd) s (by simpa using hs)
    · intro t ht htc
      have := hfits t ht
      rwa [if_pos htc] at this

/-- C1 witness: the amended claim evaluated at a concrete input — one small
instruction with a compute-budget configuration yields a single
sub-transaction within the size limit whose queue is the input. -/
theorem claim_C1_witness :
    legacyTxBytes 0 (subTxIns true (SubTx.mk [exA] true)) ≤ PACKET_DATA_SIZE ∧
    ([SubTx.mk [exA] true].map SubTx.queue).flatten = [exA] := by
  have h := (claim_C1 0 [] true [] [exA] (by decide) (List.nil_sublist _)).1
    [⟨[exA], true⟩] (by rfl) (by decide)
  exact ⟨h.1 _ (by simp), h.2.1⟩

/- ## Claim C9 -/

/-- A minimal instruction used to exercise the 12-instruction cap. -/
def smallIns (n : Nat) : TransactionInstruction := ⟨n, 7, [], 0⟩

/-- C9: every sub-transaction produced by `sizeCheckBuild` /
`sizeCheckBuildV0` holds at most 12 accumulated instructions (the
compute-budget prefix not counted) — the guard `instructionQueue.length
< 12` caps the queue regardless of serialized size; concretely, thirteen
3-byte instructions (far below the 1232-byte limit together) are split
after the twelfth. -/
theorem claim_C9 :
    (∀ (payer : Nat) (hasCfg : Bool) (splitIns ins : List TransactionInstruction)
        (txs : List SubTx), sizeCheckBuild payer hasCfg splitIns ins = .ok txs →
        ∀ t ∈ txs, t.queue.length ≤ 12) ∧
    (∀ (payer : Nat) (table : List Nat) (hasCfg : Bool)
        (splitIns ins : List TransactionInstruction) (txs : List SubTx),
        sizeCheckBuildV0 payer table hasCfg splitIns ins = .ok txs →
        ∀ t ∈ txs, t.queue.length ≤ 12) ∧
    sizeCheckBuild 0 false [] ((List.range 13).map smallIns) =
      .ok [⟨(List.range 12).map smallIns, true⟩, ⟨[smallIns 12], true⟩] := by
  refine ⟨?_, ?_, by rfl⟩
  · intro payer hasCfg splitIns ins txs h t ht
    exact sizeCheckGo_count _ splitIns ins [] 0 txs h (by simp) t ht
  · intro payer table hasCfg splitIns ins txs h t ht
    exact sizeCheckGo_count _ splitIns ins [] 0 txs h (by simp) t ht

/-- C9 witness: the cap evaluated on the concrete thirteen-instruction
split. -/
theorem claim_C9_witness :
    (SubTx.mk ((List.range 12).map smallIns) true).queue.length ≤ 12 :=
  claim_C9.1 0 false [] ((List.range 13).map smallIns) _ claim_C9.2.2 _ (by simp)

/- ## CLMM tick-array bitmap scan (pool.ts 259-322) -/

/-- Global minimum tick (constants.ts, not under src/). -/
def MIN_TICK : Int := -443636

/-- Global maximum tick (constants.ts, not under src/). -/
def MAX_TICK : Int := 443636

/-- Modelled from the spec: `TickQuery.tickCount` (tickQuery.ts, not under
src/) — ticks covered by one tick array: array size 60 × tick spacing. -/
def tickCount (ts : Nat) : Int := 60 * ts

/-- Modelled from the spec: half-range (in ticks) of the default bitmap,
which covers a bounded tick range symmetric around zero sized from the tick
spacing (512 arrays on each side). -/
def maxTickDefault (ts : Nat) : Int := 512 * tickCount ts

/-- Modelled from the spec: tick span of one extension-bitmap chunk. -/
def chunkSpan (ts : Nat) : Int := 512 * tickCount ts

/-- Modelled from the spec: `TickQuery.getArrayStartIndex` — the tick floored
to a multiple of the array span (JS `Math.floor` division). -/
def getArrayStartIndex (tick : Int) (ts : Nat) : Int :=
  tick / tickCount ts * tickCount ts

/-- Nearest allocated start index within `[lo, hi]`, from above when
scanning down (`z = true`), from below when scanning up.  The bitmaps are
modelled extensionally as the list of allocated tick-array start indexes. -/
def searchAlloc (alloc : List Int) (lo hi : Int) (z : Bool) : Option Int :=
  let cands := alloc.filter fun a => decide (lo ≤ a) && decide (a ≤ hi)
  if z then cands.max? else cands.min?

/-- Modelled from the spec:
`TickArrayBitmap.nextInitializedTickArrayStartIndex` (tickarrayBitmap.ts,
not under src/): step one array span in the trade direction; when the
stepped index leaves the default-bitmap range, hand the unchanged index
over to the extension scan; otherwise return the nearest allocated index in
the direction, or the direction-side edge of the default range when no bit
is set. -/
def bitmapNextInit (alloc : List Int) (ts : Nat) (last : Int) : Bool → Bool × Int
  | true =>
    let next := last - tickCount ts
    if next < -maxTickDefault ts ∨ maxTickDefault ts ≤ next then (false, last)
    else
      match searchAlloc alloc (-maxTickDefault ts) next true with
      | some i => (true, i)
      | none => (false, -maxTickDefault ts)
  | false =>
    let next := last + tickCount ts
    if next < -maxTickDefault ts ∨ maxTickDefault ts ≤ next then (false, last)
    else
      match searchAlloc alloc next (maxTickDefault ts - tickCount ts) false with
      | some i => (true, i)
      | none => (false, maxTickDefault ts - tickCount ts)

/-- Modelled from the spec:
`TickArrayBitmapExtensionUtils.nextInitializedTickArrayFromOneBitmap`
(tickarrayBitmap.ts, not under src/): examine the single extension-bitmap
chunk containing the next array start index and return the nearest
allocated index inside it, or the first index past the chunk in the trade
direction when the chunk holds no set bit. -/
def extBitmapNextInit (extAlloc : List Int) (ts : Nat) (last : Int) : Bool → Bool × Int
  | true =>
    let next := last - tickCount ts
    let cStart := next / chunkSpan ts * chunkSpan ts
    match searchAlloc extAlloc cStart next true with
    | some i => (true, i)
    | none => (false, cStart - tickCount ts)
  | false =>
    let next := last + tickCount ts
    let cStart := next / chunkSpan ts * chunkSpan ts
    match searchAlloc extAlloc next (cStart + chunkSpan ts - 1) false with
    | some i => (true, i)
    | none => (false, cStart + chunkSpan ts)

/-- Fuel bound for the scan loop: each iteration advances the running index
by at least one array span, so 20000 iterations always cover the global
tick range for any positive tick spacing. -/
def LOOP_FUEL : Nat := 20000

/-- The `while (true)` loop of
`PoolUtils.nextInitializedTickArrayStartIndex` (pool.ts 274-298): scan the
default bitmap, fall back to the extension bitmap, and exit with "not
found" (`(false, 0)`) once the running index leaves `[MIN_TICK, MAX_TICK]`;
`none` models running out of fuel and is proved unreachable. -/
def nextInitLoop (alloc extAlloc : List Int) (ts : Nat) (z : Bool) :
    Nat → Int → Option (Bool × Int)
  | 0, _ => none
  | fuel + 1, last =>
    if (bitmapNextInit alloc ts last z).1 then
      some (true, (bitmapNextInit alloc ts last z).2)
    else if (extBitmapNextInit extAlloc ts (bitmapNextInit alloc ts last z).2 z).1 then
      some (true, (extBitmapNextInit extAlloc ts (bitmapNextInit alloc ts last z).2 z).2)
    else if (extBitmapNextInit extAlloc ts (bitmapNextInit alloc ts last z).2 z).2 < MIN_TICK ∨
        MAX_TICK < (extBitmapNextInit extAlloc ts (bitmapNextInit alloc ts last z).2 z).2 then
      some (false, 0)
    else
      nextInitLoop alloc extAlloc ts z fuel
        (extBitmapNextInit extAlloc ts (bitmapNextInit alloc ts last z).2 z).2

/-- Pool state as consumed by the scan: current tick, tick spacing, default
bitmap and extension bitmap (both modelled extensionally as allocated
start-index sets). -/
structure ClmmPoolState where
  tickCurrent : Int
  tickSpacing : Nat
  tickArrayBitmap : List Int
  exBitmapInfo : List Int

/-- `PoolUtils.nextInitializedTickArrayStartIndex` (pool.ts 259-298).  The
caller-supplied `lastTickArrayStartIndex` is unconditionally overwritten
from `poolInfo.tickCurrent` before first use (pool.ts 271), exactly as in
the source. -/
def nextInitializedTickArrayStartIndex (pool : ClmmPoolState)
    (_lastTickArrayStartIndex : Int) (z : Bool) : Option (Bool × Int) :=
  nextInitLoop pool.tickArrayBitmap pool.exBitmapInfo pool.tickSpacing z LOOP_FUEL
    (getArrayStartIndex pool.tickCurrent pool.tickSpacing)


lemma tickCount_nonneg (ts : Nat) : 0 ≤ tickCount ts := by
  unfold tickCount; positivity

lemma tickCount_pos {ts : Nat} (h : 1 ≤ ts) : 0 < tickCount ts := by
  unfold tickCount
  have : (1 : Int) ≤ (ts : Int) := by exact_mod_cast h
  omega

lemma tickCount_ge_60 {ts : Nat} (h : 1 ≤ ts) : 60 ≤ tickCount ts := by
  unfold tickCount
  have : (1 : Int) ≤ (ts : Int) := by exact_mod_cast h
  nlinarith

lemma chunkSpan_pos {ts : Nat} (h : 1 ≤ ts) : 0 < chunkSpan ts := by
  unfold chunkSpan
  have := tickCount_pos h
  omega

lemma lt_ediv_mul_add {a b : Int} (hb : 0 < b) : a < a / b * b + b := by
  have h1 := Int.ediv_add_emod a b
  have h2 := Int.emod_lt_of_pos a hb
  have h3 : a / b * b = b * (a / b) := mul_comm _ _
  omega

lemma ediv_mul_le' {a b : Int} (hb : 0 < b) : a / b * b ≤ a :=
  Int.ediv_mul_le a (by omega)

lemma searchAlloc_nil (lo hi : Int) (z : Bool) : searchAlloc [] lo hi z = none := by
  cases z <;> rfl

lemma bitmapNextInit_nil_fst (ts : Nat) (last : Int) (z : Bool) :
    (bitmapNextInit [] ts last z).1 = false := by
  cases z <;>
    · simp only [bitmapNextInit, searchAlloc_nil]
      split <;> rfl

lemma extBitmapNextInit_nil_fst (ts : Nat) (last : Int) (z : Bool) :
    (extBitmapNextInit [] ts last z).1 = false := by
  cases z <;> rfl

/-- Downward scan: when the default bitmap reports "not found", the handed
over index never moves up. -/
lemma bitmapNextInit_true_cases (alloc : List Int) (ts : Nat) (last : Int) :
    (bitmapNextInit alloc ts last true).1 = true ∨
    ((bitmapNextInit alloc ts last true).1 = false ∧
      (bitmapNextInit alloc ts last true).2 ≤ last) := by
  have htc := tickCount_nonneg ts
  simp only [bitmapNextInit]
  split
  · exact Or.inr ⟨rfl, le_refl _⟩
  next hin =>
    obtain ⟨hin1, hin2⟩ := not_or.mp hin
    cases hsa : searchAlloc alloc (-maxTickDefault ts) (last - tickCount ts) true with
    | some i => exact Or.inl rfl
    | none =>
      refine Or.inr ⟨rfl, ?_⟩
      simp only []
      omega

/-- Upward scan: when the default bitmap reports "not found", the handed
over index never moves down. -/
lemma bitmapNextInit_false_cases (alloc : List Int) (ts : Nat) (last : Int) :
    (bitmapNextInit alloc ts last false).1 = true ∨
    ((bitmapNextInit alloc ts last false).1 = false ∧
      last ≤ (bitmapNextInit alloc ts last false).2) := by
  have htc := tickCount_nonneg ts
  simp only [bitmapNextInit]
  split
  · exact Or.inr ⟨rfl, le_refl _⟩
  next hin =>
    obtain ⟨hin1, hin2⟩ := not_or.mp hin
    cases hsa : searchAlloc alloc (last + tickCount ts) (maxTickDefault ts - tickCount ts) false with
    | some i => exact Or.inl rfl
    | none =>
      refine Or.inr ⟨rfl, ?_⟩
      simp only []
      omega

/-- Downward scan: an empty extension chunk moves the running index down by
at least two array spans. -/
lemma extBitmapNextInit_true_cases (extAlloc : List Int) (ts : Nat) (d : Int)
    (hts : 1 ≤ ts) :
    (extBitmapNextInit extAlloc ts d true).1 = true ∨
    ((extBitmapNextInit extAlloc ts d true).1 = false ∧
      (extBitmapNextInit extAlloc ts d true).2 ≤ d - 2 * tickCount ts) := by
  have hcs := chunkSpan_pos hts
  simp only [extBitmapNextInit]
  cases hsa : searchAlloc extAlloc ((d - tickCount ts) / chunkSpan ts * chunkSpan ts)
      (d - tickCount ts) true with
  | some i => exact Or.inl rfl
  | none =>
    refine Or.inr ⟨rfl, ?_⟩
    have := ediv_mul_le' (a := d - tickCount ts) hcs
    simp only []
    omega

/-- Upward scan: an empty extension chunk moves the running index up by more
than one array span. -/
lemma extBitmapNextInit_false_cases (extAlloc : List Int) (ts : Nat) (d : Int)
    (hts : 1 ≤ ts) :
    (extBitmapNextInit extAlloc ts d false).1 = true ∨
    ((extBitmapNextInit extAlloc ts d false).1 = false ∧
      d + tickCount ts + 1 ≤ (extBitmapNextInit extAlloc ts d false).2) := by
  have hcs := chunkSpan_pos hts
  simp only [extBitmapNextInit]
  cases hsa : searchAlloc extAlloc (d + tickCount ts)
      ((d + tickCount ts) / chunkSpan ts * chunkSpan ts + chunkSpan ts - 1) false with
  | some i => exact Or.inl rfl
  | none =>
    refine Or.inr ⟨rfl, ?_⟩
    have := lt_ediv_mul_add (a := d + tickCount ts) hcs
    simp only []
    omega

/-- Downward termination: with enough fuel (linear in the distance to the
lower tick boundary) the scan loop returns, and returns "not found"
(`(false, 0)`) when both bitmaps are all-zero. -/
lemma nextInitLoop_true_total (alloc extAlloc : List Int) (ts : Nat) (hts : 1 ≤ ts) :
    ∀ (fuel : Nat) (last : Int),
      MIN_TICK - tickCount ts ≤ last →
      last + 443637 + tickCount ts ≤ 2 * tickCount ts * (fuel : Int) →
      ∃ r, nextInitLoop alloc extAlloc ts true fuel last = some r ∧
        (alloc = [] → extAlloc = [] → r = (false, 0)) := by
  intro fuel
  induction fuel with
  | zero =>
    intro last h1 h2
    exfalso
    have htc := tickCount_nonneg ts
    simp only [MIN_TICK] at h1
    simp only [Nat.cast_zero, mul_zero] at h2
    omega
  | succ fuel ih =>
    intro last h1 h2
    rcases bitmapNextInit_true_cases alloc ts last with hs | ⟨hs1, hs2⟩
    · refine ⟨(true, (bitmapNextInit alloc ts last true).2), ?_, ?_⟩
      · simp [nextInitLoop, hs]
      · intro ha _
        rw [ha, bitmapNextInit_nil_fst] at hs
        cases hs
    · rcases extBitmapNextInit_true_cases extAlloc ts (bitmapNextInit alloc ts last true).2 hts
        with he | ⟨he1, he2⟩
      · refine ⟨(true, (extBitmapNextInit extAlloc ts (bitmapNextInit alloc ts last true).2 true).2),
          ?_, ?_⟩
        · simp [nextInitLoop, hs1, he]
        · intro _ hee
          rw [hee, extBitmapNextInit_nil_fst] at he
          cases he
      · by_cases hexit :
          (extBitmapNextInit extAlloc ts (bitmapNextInit alloc ts last true).2 true).2 < MIN_TICK ∨
          MAX_TICK < (extBitmapNextInit extAlloc ts (bitmapNextInit alloc ts last true).2 true).2
        · exact ⟨(false, 0), by simp [nextInitLoop, hs1, he1, hexit], fun _ _ => rfl⟩
        · obtain ⟨hge, hle⟩ :
              MIN_TICK ≤ (extBitmapNextInit extAlloc ts (bitmapNextInit alloc ts last true).2 true).2 ∧
              (extBitmapNextInit extAlloc ts (bitmapNextInit alloc ts last true).2 true).2 ≤ MAX_TICK := by
            obtain ⟨ha', hb'⟩ := not_or.mp hexit
            exact ⟨not_lt.mp ha', not_lt.mp hb'⟩
          have htc := tickCount_nonneg ts
          have hmul : 2 * tickCount ts * ((fuel : Int) + 1) =
              2 * tickCount ts * (fuel : Int) + 2 * tickCount ts := by ring
          obtain ⟨r, hr, hcond⟩ :=
            ih (extBitmapNextInit extAlloc ts (bitmapNextInit alloc ts last true).2 true).2
              (by simp only [MIN_TICK] at hge ⊢; omega)
              (by
                push_cast at h2
                rw [hmul] at h2
                omega)
          exact ⟨r, by simpa [nextInitLoop, hs1, he1, hexit] using hr, hcond⟩

/-- Upward termination: with enough fuel (linear in the distance to the
upper tick boundary) the scan loop returns, and returns "not found" when
both bitmaps are all-zero. -/
lemma nextInitLoop_false_total (alloc extAlloc : List Int) (ts : Nat) (hts : 1 ≤ ts) :
    ∀ (fuel : Nat) (last : Int),
      last ≤ MAX_TICK →
      MAX_TICK + 1 - last ≤ (tickCount ts + 1) * (fuel : Int) →
      ∃ r, nextInitLoop alloc extAlloc ts false fuel last = some r ∧
        (alloc = [] → extAlloc = [] → r = (false, 0)) := by
  intro fuel
  induction fuel with
  | zero =>
    intro last h1 h2
    exfalso
    simp only [Nat.cast_zero, mul_zero] at h2
    simp only [MAX_TICK] at h1 h2
    omega
  | succ fuel ih =>
    intro last h1 h2
    rcases bitmapNextInit_false_cases alloc ts last with hs | ⟨hs1, hs2⟩
    · refine ⟨(true, (bitmapNextInit alloc ts last false).2), ?_, ?_⟩
      · simp [nextInitLoop, hs]
      · intro ha _
        rw [ha, bitmapNextInit_nil_fst] at hs
        cases hs
    · rcases extBitmapNextInit_false_cases extAlloc ts (bitmapNextInit alloc ts last false).2 hts
        with he | ⟨he1, he2⟩
      · refine ⟨(true, (extBitmapNextInit extAlloc ts (bitmapNextInit alloc ts last false).2 false).2),
          ?_, ?_⟩
        · simp [nextInitLoop, hs1, he]
        · intro _ hee
          rw [hee, extBitmapNextInit_nil_fst] at he
          cases he
      · by_cases hexit :
          (extBitmapNextInit extAlloc ts (bitmapNextInit alloc ts last false).2 false).2 < MIN_TICK ∨
          MAX_TICK < (extBitmapNextInit extAlloc ts (bitmapNextInit alloc ts last false).2 false).2
        · exact ⟨(false, 0), by simp [nextInitLoop, hs1, he1, hexit], fun _ _ => rfl⟩
        · obtain ⟨hge, hle⟩ :
              MIN_TICK ≤ (extBitmapNextInit extAlloc ts (bitmapNextInit alloc ts last false).2 false).2 ∧
              (extBitmapNextInit extAlloc ts (bitmapNextInit alloc ts last false).2 false).2 ≤ MAX_TICK := by
            obtain ⟨ha', hb'⟩ := not_or.mp hexit
            exact ⟨not_lt.mp ha', not_lt.mp hb'⟩
          have htc := tickCount_nonneg ts
          have hmul : (tickCount ts + 1) * ((fuel : Int) + 1) =
              (tickCount ts + 1) * (fuel : Int) + tickCount ts + 1 := by ring
          obtain ⟨r, hr, hcond⟩ :=
            ih (extBitmapNextInit extAlloc ts (bitmapNextInit alloc ts last false).2 false).2
              hle
              (by
                push_cast at h2
                rw [hmul] at h2
                omega)
          exact ⟨r, by simpa [nextInitLoop, hs1, he1, hexit] using hr, hcond⟩

/-- C2: for every pool state with positive tick spacing and current tick in
the global range, the directional scan
`nextInitializedTickArrayStartIndex` terminates within the fuel bound (the
while-loop never runs unbounded), and on a pool whose default and extension
bitmaps are all zero it returns `isExist = false` (no allocated tick array
between the start and the global tick boundary). -/
theorem claim_C2 (pool : ClmmPoolState) (z : Bool) (lastArg : Int)
    (hts : 1 ≤ pool.tickSpacing)
    (hlo : MIN_TICK ≤ pool.tickCurrent) (hhi : pool.tickCurrent ≤ MAX_TICK) :
    (∃ r, nextInitializedTickArrayStartIndex pool lastArg z = some r) ∧
    (pool.tickArrayBitmap = [] → pool.exBitmapInfo = [] →
      nextInitializedTickArrayStartIndex pool lastArg z = some (false, 0)) := by
  have htc := tickCount_pos hts
  have h60 := tickCount_ge_60 hts
  have hstart_le : getArrayStartIndex pool.tickCurrent pool.tickSpacing ≤ pool.tickCurrent :=
    ediv_mul_le' htc
  have hstart_gt : pool.tickCurrent <
      getArrayStartIndex pool.tickCurrent pool.tickSpacing + tickCount pool.tickSpacing :=
    lt_ediv_mul_add htc
  unfold nextInitializedTickArrayStartIndex
  cases z
  · obtain ⟨r, hr, hcond⟩ := nextInitLoop_false_total pool.tickArrayBitmap pool.exBitmapInfo
      pool.tickSpacing hts LOOP_FUEL (getArrayStartIndex pool.tickCurrent pool.tickSpacing)
      (le_trans hstart_le hhi)
      (by
        simp only [MAX_TICK, MIN_TICK, LOOP_FUEL] at *
        push_cast
        omega)
    exact ⟨⟨r, hr⟩, fun ha he => by rw [hcond ha he] at hr; exact hr⟩
  · obtain ⟨r, hr, hcond⟩ := nextInitLoop_true_total pool.tickArrayBitmap pool.exBitmapInfo
      pool.tickSpacing hts LOOP_FUEL (getArrayStartIndex pool.tickCurrent pool.tickSpacing)
      (by simp only [MIN_TICK] at *; omega)
      (by
        simp only [MAX_TICK, MIN_TICK, LOOP_FUEL] at *
        push_cast
        omega)
    exact ⟨⟨r, hr⟩, fun ha he => by rw [hcond ha he] at hr; exact hr⟩

/-- C2 witness: a pool at tick 0 with spacing 1 and all-zero bitmaps — the
downward scan terminates and reports "not found". -/
theorem claim_C2_witness :
    nextInitializedTickArrayStartIndex ⟨0, 1, [], []⟩ 999 true = some (false, 0) :=
  (claim_C2 ⟨0, 1, [], []⟩ true 999 (by decide) (by decide) (by decide)).2 rfl rfl

/-- C10: the caller-supplied `lastTickArrayStartIndex` argument is dead —
it is unconditionally overwritten with the array start index derived from
`poolInfo.tickCurrent` before first use (pool.ts 271) — so the scan result
is identical for any two values of the argument. -/
theorem claim_C10 (pool : ClmmPoolState) (z : Bool) (a b : Int) :
    nextInitializedTickArrayStartIndex pool a z =
    nextInitializedTickArrayStartIndex pool b z := rfl

/- ## Reward-stream advancement (pool.ts 325-373) -/

/-- `2^64`, the X64 fixed-point unit (`Q64` of constants.ts). -/
def Q64 : Int := 2 ^ 64

/-- Modelled from the spec: `MathUtil.mulDivFloor` (math.ts, not under
src/) — multiply then divide with floor rounding. -/
def mulDivFloor (a b c : Int) : Int := a * b / c

/-- One on-chain reward stream (`ClmmPoolRewardLayoutInfo` /
`ClmmPoolRewardInfo`): the unused slot marker `tokenMint =
PublicKey.default` is modelled as `tokenMint = 0`.  The derived fields
`perSecond` and `tokenProgramId` added by `updatePoolRewardInfos` do not
participate in any verified property and are elided. -/
structure RewardInfo where
  tokenMint : Nat
  openTime : Int
  endTime : Int
  lastUpdateTime : Int
  emissionsPerSecondX64 : Int
  rewardGrowthGlobalX64 : Int
  rewardTotalEmissioned : Int
deriving DecidableEq, Repr

/-- Per-stream body of `PoolUtils.updatePoolRewardInfos` (pool.ts 339-371):
drop unused slots; pass a stream through unchanged while chain time has not
passed its start time or pool liquidity is zero; otherwise advance the
growth accumulator, the total-emissioned counter and the last-update time
over the elapsed window clamped to the stream's end time. -/
def updateRewardInfo (chainTime poolLiquidity : Int) (r : RewardInfo) : Option RewardInfo :=
  if r.tokenMint = 0 then none
  else if chainTime ≤ r.openTime ∨ poolLiquidity = 0 then some r
  else
    let latestUpdateTime := min r.endTime chainTime
    let timeDelta := latestUpdateTime - r.lastUpdateTime
    some { r with
      rewardGrowthGlobalX64 :=
        r.rewardGrowthGlobalX64 + mulDivFloor timeDelta r.emissionsPerSecondX64 poolLiquidity
      rewardTotalEmissioned :=
        r.rewardTotalEmissioned + mulDivFloor timeDelta r.emissionsPerSecondX64 Q64
      lastUpdateTime := latestUpdateTime }

/-- `PoolUtils.updatePoolRewardInfos` (pool.ts 325-373), with the reward
token program lookup (a network fetch irrelevant to the verified
properties) elided. -/
def updatePoolRewardInfos (chainTime poolLiquidity : Int)
    (rewardInfos : List RewardInfo) : List RewardInfo :=
  rewardInfos.filterMap (updateRewardInfo chainTime poolLiquidity)

/-- C3: for a configured reward stream whose chain time is past its start
time, with positive pool liquidity, a consistent last-update time and a
non-negative emission rate, `updatePoolRewardInfos` advances
`rewardGrowthGlobalX64` and `rewardTotalEmissioned` linearly (with floor
division) over the window from `lastUpdateTime` to
`min(chainTime, endTime)`, sets `lastUpdateTime` to `min(chainTime,
endTime)`, and the result is monotone non-decreasing and never advances the
stream past its end time even when chain time exceeds it. -/
theorem claim_C3 (chainTime poolLiquidity : Int) (r : RewardInfo)
    (hmint : r.tokenMint ≠ 0)
    (hopen : r.openTime < chainTime)
    (hliq : 0 < poolLiquidity)
    (hlu1 : r.lastUpdateTime ≤ chainTime)
    (hlu2 : r.lastUpdateTime ≤ r.endTime)
    (hemit : 0 ≤ r.emissionsPerSecondX64) :
    ∃ r', updatePoolRewardInfos chainTime poolLiquidity [r] = [r'] ∧
      r'.rewardGrowthGlobalX64 = r.rewardGrowthGlobalX64 +
        (min r.endTime chainTime - r.lastUpdateTime) * r.emissionsPerSecondX64 / poolLiquidity ∧
      r'.rewardTotalEmissioned = r.rewardTotalEmissioned +
        (min r.endTime chainTime - r.lastUpdateTime) * r.emissionsPerSecondX64 / Q64 ∧
      r'.lastUpdateTime = min r.endTime chainTime ∧
      r.rewardGrowthGlobalX64 ≤ r'.rewardGrowthGlobalX64 ∧
      r.rewardTotalEmissioned ≤ r'.rewardTotalEmissioned ∧
      r.lastUpdateTime ≤ r'.lastUpdateTime ∧
      r'.lastUpdateTime ≤ r.endTime := by
  have hnot : ¬(chainTime ≤ r.openTime ∨ poolLiquidity = 0) := by
    push_neg
    exact ⟨hopen, by omega⟩
  have hdelta : 0 ≤ min r.endTime chainTime - r.lastUpdateTime := by
    have := le_min hlu2 hlu1
    omega
  have hgrow : 0 ≤ (min r.endTime chainTime - r.lastUpdateTime) *
      r.emissionsPerSecondX64 / poolLiquidity :=
    Int.ediv_nonneg (mul_nonneg hdelta hemit) (le_of_lt hliq)
  have hemitted : 0 ≤ (min r.endTime chainTime - r.lastUpdateTime) *
      r.emissionsPerSecondX64 / Q64 :=
    Int.ediv_nonneg (mul_nonneg hdelta hemit) (by unfold Q64; positivity)
  refine ⟨{ r with
      rewardGrowthGlobalX64 := r.rewardGrowthGlobalX64 +
        mulDivFloor (min r.endTime chainTime - r.lastUpdateTime) r.emissionsPerSecondX64
          poolLiquidity
      rewardTotalEmissioned := r.rewardTotalEmissioned +
        mulDivFloor (min r.endTime chainTime - r.lastUpdateTime) r.emissionsPerSecondX64 Q64
      lastUpdateTime := min r.endTime chainTime }, ?_, ?_, ?_, ?_, ?_, ?_, ?_, ?_⟩
  · simp [updatePoolRewardInfos, updateRewardInfo, hmint, hnot]
  · simp [mulDivFloor]
  · simp [mulDivFloor]
  · rfl
  · simp only [mulDivFloor]
    omega
  · simp only [mulDivFloor]
    omega
  · simp only []
    exact le_min hlu2 hlu1
  · exact min_le_left _ _

/-- C3 witness: scenario B of the spec — emission 2^64 per second, liquidity
1, last update 1000, chain time 1100, end time 1050: growth advances by the
clamped 50-second window only. -/
theorem claim_C3_witness :
    ∃ r', updatePoolRewardInfos 1100 1 [⟨5, 900, 1050, 1000, Q64, 7, 3⟩] = [r'] ∧
      r'.rewardGrowthGlobalX64 = 7 + (min 1050 1100 - 1000) * Q64 / 1 ∧
      r'.rewardTotalEmissioned = 3 + (min 1050 1100 - 1000) * Q64 / Q64 ∧
      r'.lastUpdateTime = min 1050 1100 ∧
      (7 : Int) ≤ r'.rewardGrowthGlobalX64 ∧
      (3 : Int) ≤ r'.rewardTotalEmissioned ∧
      (1000 : Int) ≤ r'.lastUpdateTime ∧
      r'.lastUpdateTime ≤ 1050 :=
  claim_C3 1100 1 ⟨5, 900, 1050, 1000, Q64, 7, 3⟩ (by decide) (by decide) (by decide)
    (by decide) (by decide) (by unfold Q64; decide)

/-- C4: a configured reward stream whose start time chain time has not
passed, or met while pool liquidity is zero, is passed through unchanged by
`updatePoolRewardInfos`: the returned stream equals the input stream (in
particular its `rewardGrowthGlobalX64`, `rewardTotalEmissioned` and
`lastUpdateTime`). -/
theorem claim_C4 (chainTime poolLiquidity : Int) (r : RewardInfo)
    (hmint : r.tokenMint ≠ 0)
    (h : chainTime ≤ r.openTime ∨ poolLiquidity = 0) :
    updatePoolRewardInfos chainTime poolLiquidity [r] = [r] := by
  simp [updatePoolRewardInfos, updateRewardInfo, hmint, h]

/-- C4 witness: chain time equal to the start time is a no-op. -/
theorem claim_C4_witness :
    updatePoolRewardInfos 900 12345 [⟨5, 900, 1050, 800, Q64, 7, 3⟩] =
      [⟨5, 900, 1050, 800, Q64, 7, 3⟩] :=
  claim_C4 900 12345 ⟨5, 900, 1050, 800, Q64, 7, 3⟩ (by decide) (Or.inl (by decide))

/- ## Slippage application (pool.ts 714-717 and 913-922) -/

/-- The fixed-point scale `10000000000` used by the slippage factors. -/
def SLIPPAGE_UNIT : Nat := 10000000000

/-- The `_minAmountOut` computation of `PoolUtils.computeAmountOut`
(pool.ts 714-716): the expected output is multiplied by
`Math.floor((1 - slippage) * 1e10)` and divided by `1e10` with `BN`
division (floor on the non-negative values involved).  JS numbers are
modelled as exact rationals, `BN` amounts as `Nat`.  The surrounding swap
computation (`SwapMath.swapCompute`, math.ts, not under src/) and the
transfer-fee wrapper are outside this claim: the expected amount is taken
as an input. -/
def minAmountOutOfExpected (expectedAmountOut : Nat) (slippage : ℚ) : Nat :=
  expectedAmountOut * (Int.floor ((1 - slippage) * (SLIPPAGE_UNIT : ℚ))).toNat / SLIPPAGE_UNIT

/-- The `_maxAmountIn` computation of `PoolUtils.computeAmountIn`
(pool.ts 913-915): the expected input is multiplied by
`Math.floor((1 + slippage) * 1e10)` — `Math.floor`, not `Math.ceil` — and
divided by `1e10` with `BN` (floor) division. -/
def maxAmountInOfExpected (expectedAmountIn : Nat) (slippage : ℚ) : Nat :=
  expectedAmountIn * (Int.floor ((1 + slippage) * (SLIPPAGE_UNIT : ℚ))).toNat / SLIPPAGE_UNIT

/-- C5 counterexample: at slippage `1/3` and expected output `3`, the code
returns `1` while `⌊3·(1−1/3)⌋ = 2` (the quantized factor loses the claim's
exact floor); and at slippage `1/10` and expected input `3`, the code
returns `3` — floor — while the claimed ceiling rounding gives
`⌈3·(1+1/10)⌉ = 4`. -/
theorem claim_C5_counterexample :
    (minAmountOutOfExpected 3 (1/3) = 1 ∧ Int.floor ((3 : ℚ) * (1 - 1/3)) = 2) ∧
    (maxAmountInOfExpected 3 (1/10) = 3 ∧ Int.ceil ((3 : ℚ) * (1 + 1/10)) = 4) := by
  refine ⟨⟨?_, by norm_num⟩, ?_, ?_⟩
  · unfold minAmountOutOfExpected SLIPPAGE_UNIT
    have h : Int.floor ((1 - 1/3 : ℚ) * ((10000000000 : Nat) : ℚ)) = 6666666666 := by
      norm_num
    rw [h]
    rfl
  · unfold maxAmountInOfExpected SLIPPAGE_UNIT
    have h : Int.floor ((1 + 1/10 : ℚ) * ((10000000000 : Nat) : ℚ)) = 11000000000 := by
      norm_num
    rw [h]
    rfl
  · rw [show (3 : ℚ) * (1 + 1/10) = 33/10 by norm_num, Int.ceil_eq_iff]
    norm_num

lemma nat_div_cast_floor (a : Nat) (n : Int) (hn : 0 ≤ n) (U : Nat) :
    ((a * n.toNat / U : Nat) : ℤ) = ⌊(a : ℚ) * ((n : ℚ) / (U : ℚ))⌋ := by
  have h1 : (a : ℚ) * ((n : ℚ) / (U : ℚ)) = (((a : ℤ) * n : ℤ) : ℚ) / ((U : ℕ) : ℚ) := by
    push_cast
    ring
  rw [h1, Rat.floor_intCast_div_natCast, Int.natCast_div]
  congr 1
  push_cast [Int.toNat_of_nonneg hn]
  ring

/-- C5 (amended): both slippage bounds round with floor, not ceiling, after
quantizing the factor to a multiple of `1e-10`: `minAmountOut =
⌊out·⌊(1−s)·1e10⌋/1e10⌋` and `maxAmountIn = ⌊in·⌊(1+s)·1e10⌋/1e10⌋`.  In
particular, whenever `(1−s)·1e10` and `(1+s)·1e10` are integers (slippage
an exact multiple of `1e-10`), `minAmountOut = ⌊out·(1−s)⌋` — as claimed —
but `maxAmountIn = ⌊in·(1+s)⌋`, floor rather than the claimed ceiling. -/
theorem claim_C5 (out inp : Nat) (s : ℚ) (h0 : 0 ≤ s) (h1 : s ≤ 1)
    (hq1 : ((1 - s) * (SLIPPAGE_UNIT : ℚ)).den = 1)
    (hq2 : ((1 + s) * (SLIPPAGE_UNIT : ℚ)).den = 1) :
    ((minAmountOutOfExpected out s : ℕ) : ℤ) = ⌊(out : ℚ) * (1 - s)⌋ ∧
    ((maxAmountInOfExpected inp s : ℕ) : ℤ) = ⌊(inp : ℚ) * (1 + s)⌋ := by
  have hU : ((SLIPPAGE_UNIT : ℕ) : ℚ) ≠ 0 := by norm_num [SLIPPAGE_UNIT]
  constructor
  · unfold minAmountOutOfExpected
    set q : ℚ := (1 - s) * (SLIPPAGE_UNIT : ℚ) with hqdef
    have hq0 : 0 ≤ q := mul_nonneg (by linarith) (by norm_num [SLIPPAGE_UNIT])
    have hnum : (q.num : ℚ) = q := (Rat.den_eq_one_iff q).mp hq1
    have hfl : Int.floor q = q.num := by
      rw [← hnum]
      exact Int.floor_intCast _
    have hs_eq : (1 - s) = (q.num : ℚ) / (SLIPPAGE_UNIT : ℚ) := by
      rw [hnum, hqdef]
      field_simp
    have hn0 : 0 ≤ q.num := Rat.num_nonneg.mpr hq0
    rw [hfl, hs_eq]
    exact nat_div_cast_floor out q.num hn0 SLIPPAGE_UNIT
  · unfold maxAmountInOfExpected
    set q : ℚ := (1 + s) * (SLIPPAGE_UNIT : ℚ) with hqdef
    have hq0 : 0 ≤ q := mul_nonneg (by linarith) (by norm_num [SLIPPAGE_UNIT])
    have hnum : (q.num : ℚ) = q := (Rat.den_eq_one_iff q).mp hq2
    have hfl : Int.floor q = q.num := by
      rw [← hnum]
      exact Int.floor_intCast _
    have hs_eq : (1 + s) = (q.num : ℚ) / (SLIPPAGE_UNIT : ℚ) := by
      rw [hnum, hqdef]
      field_simp
    have hn0 : 0 ≤ q.num := Rat.num_nonneg.mpr hq0
    rw [hfl, hs_eq]
    exact nat_div_cast_floor inp q.num hn0 SLIPPAGE_UNIT

/-- C5 witness: the amended claim at slippage `1/10` (an exact multiple of
`1e-10`): `minAmountOut(100) = ⌊100·0.9⌋ = 90` and `maxAmountIn(3) =
⌊3·1.1⌋ = 3`. -/
theorem claim_C5_witness :
    ((minAmountOutOfExpected 100 (1/10) : ℕ) : ℤ) = ⌊(100 : ℚ) * (1 - 1/10)⌋ ∧
    ((maxAmountInOfExpected 3 (1/10) : ℕ) : ℤ) = ⌊(3 : ℚ) * (1 + 1/10)⌋ :=
  claim_C5 100 3 (1/10) (by norm_num) (by norm_num)
    (by norm_num [SLIPPAGE_UNIT]) (by norm_num [SLIPPAGE_UNIT])

/- ## Single-transaction execute (txTool.ts 369-425) -/

/-- Network operations observable during `execute`. -/
inductive NetEffect where
  | fetchBlockhash
  | sendTransaction
deriving DecidableEq, Repr

/-- The `execute` closure returned by `TxBuilder.build` (txTool.ts
381-421), reduced to its ordered trace of network calls plus its outcome.
`ownerIsKeyPair` models `this.owner?.isKeyPair`, `hasSignAll` models the
presence of `this.signAllTransactions`.  The blockhash is fetched from the
network (`getRecentBlockHash`) unless the caller passed `recentBlockHash`;
this happens before the signing-capability checks.  Local signing and the
wallet's signing callback are not network calls and do not appear in the
trace; `sendAndConfirm` only changes how the send is awaited and is
elided. -/
def buildExecute (ownerIsKeyPair hasSignAll : Bool) (propBlockHash : Option Nat)
    (notSendToRpc : Bool) : List NetEffect × Except String Unit :=
  let bhEffects : List NetEffect :=
    match propBlockHash with
    | some _ => []
    | none => [NetEffect.fetchBlockhash]
  if ownerIsKeyPair then (bhEffects ++ [NetEffect.sendTransaction], .ok ())
  else if hasSignAll then
    (bhEffects ++ (if notSendToRpc then [] else [NetEffect.sendTransaction]), .ok ())
  else (bhEffects, .error "please provide owner in keypair format or signAllTransactions function")

/-- C6 counterexample: with neither a key-pair owner nor a batch-signing
callback and no caller-supplied blockhash, `execute` performs the blockhash
network fetch and only then fails with the configuration error — refuting
"before any network call is made (no blockhash fetch)". -/
theorem claim_C6_counterexample :
    buildExecute false false none false =
      ([NetEffect.fetchBlockhash],
        .error "please provide owner in keypair format or signAllTransactions function") ∧
    NetEffect.fetchBlockhash ∈ (buildExecute false false none false).1 := by
  exact ⟨rfl, by decide⟩

/-- C6 (amended): with neither a key-pair owner nor a batch-signing
callback, `execute` always fails with the configuration error and never
broadcasts (no send reaches the network); the failure is fast only up to
the blockhash fetch, which does happen first unless the caller supplies a
`recentBlockHash` (in which case no network call at all precedes the
error). -/
theorem claim_C6 (ownerIsKeyPair hasSignAll : Bool) (propBlockHash : Option Nat)
    (notSendToRpc : Bool) (h1 : ownerIsKeyPair = false) (h2 : hasSignAll = false) :
    (buildExecute ownerIsKeyPair hasSignAll propBlockHash notSendToRpc).2 =
      .error "please provide owner in keypair format or signAllTransactions function" ∧
    NetEffect.sendTransaction ∉
      (buildExecute ownerIsKeyPair hasSignAll propBlockHash notSendToRpc).1 ∧
    (∀ bh, propBlockHash = some bh →
      (buildExecute ownerIsKeyPair hasSignAll propBlockHash notSendToRpc).1 = []) := by
  subst h1
  subst h2
  refine ⟨?_, ?_, ?_⟩
  · cases propBlockHash <;> rfl
  · cases propBlockHash <;> simp [buildExecute]
  · intro bh hb
    subst hb
    rfl

/-- C6 witness: with a caller-supplied blockhash the failure happens with
an empty network trace. -/
theorem claim_C6_witness :
    (buildExecute false false (some 5) false).2 =
      .error "please provide owner in keypair format or signAllTransactions function" ∧
    (buildExecute false false (some 5) false).1 = [] :=
  ⟨(claim_C6 false false (some 5) false rfl rfl).1,
   (claim_C6 false false (some 5) false rfl rfl).2.2 5 rfl⟩

/- ## Sequential multi-transaction send phase (txTool.ts 1014-1099, 1310-1396) -/

/-- Observable state of the synchronous phase of one `checkSendTx` call
chain: the shared mutable index `i` when every call in the chain has
suspended, the ordered transaction indices whose RPC send was initiated,
and whether some call attempted to serialize a missing transaction. -/
structure SendPhase where
  iAfter : Nat
  sends : List Nat
  crashed : Bool
deriving DecidableEq, Repr

/-- Synchronous phase of the self-invoking sequential sender
`checkSendTx`, run from entry until every call of the chain has suspended
at its first `await` (no confirmation callback has fired yet).  `len` is
the number of signed transactions, `skip` is `skipTxCount`, and the last
argument is the shared index `i`.  With `withReturn = true` this is the V0
executor (txTool.ts 1313-1322), whose skip branch ends in `return`; with
`withReturn = false` it is the legacy executor of `sizeCheckBuild`
(txTool.ts 1017-1029), whose skip branch has no `return`: after the nested
un-awaited `checkSendTx()` call suspends, the parent falls through to the
send statement and initiates a send of `signedTxs[i]` at the then-current
shared `i`.  The fuel argument only bounds the recursion depth; any fuel
above `skip` is exact. -/
def checkSendTxSyncPhase (withReturn : Bool) (len skip : Nat) :
    Nat → Nat → SendPhase
  | 0, i => ⟨i, [], false⟩
  | fuel + 1, i =>
    if len ≤ i then ⟨i, [], false⟩
    else if i < skip then
      let r := checkSendTxSyncPhase withReturn len skip fuel (i + 1)
      if withReturn then r
      else if r.iAfter < len then ⟨r.iAfter, r.sends ++ [r.iAfter], false⟩
      else ⟨r.iAfter, r.sends, true⟩
    else ⟨i, [i], false⟩

/-- The synchronous send phase of a sequential batch execution started at
index 0. -/
def sendPhase (withReturn : Bool) (len skip : Nat) : SendPhase :=
  checkSendTxSyncPhase withReturn len skip (skip + 1) 0

/-- C7: executing a two-transaction batch of legacy `sizeCheckBuild`
sequentially with skip count 1 initiates the RPC send of transaction 1
twice (the skip branch lacks the `return` that the `sizeCheckBuildV0`
executor has, so after the nested `checkSendTx()` suspends the parent falls
through and sends the same index again), while the V0 executor sends it
exactly once.  The first (skipped) transaction is never sent in either
variant. -/
theorem claim_C7 :
    sendPhase false 2 1 = ⟨1, [1, 1], false⟩ ∧
    sendPhase true 2 1 = ⟨1, [1], false⟩ ∧
    ¬(sendPhase false 2 1).sends.count 1 ≤ 1 ∧
    0 ∉ (sendPhase false 2 1).sends ∧ 0 ∉ (sendPhase true 2 1).sends := by
  refine ⟨rfl, rfl, by decide, by decide, by decide⟩

/- ## Confirmation callback (txTool.ts 519-530, 1035-1046, 1332-1343) -/

/-- Per-transaction lifecycle status of the sequential executors. -/
inductive TxStatus where
  | sent
  | success
  | error
deriving DecidableEq, Repr

/-- One entry of `processedTxs`. -/
structure TxRecord where
  txId : Nat
  status : TxStatus
deriving DecidableEq, Repr

/-- The `cbk` confirmation callback shared by `buildMultiTx`,
`sizeCheckBuild` and `sizeCheckBuildV0` (txTool.ts 519-530, 1035-1046,
1332-1343), restricted to its effect on the `processedTxs` status list:
find the first record with the resolved transaction id; if its status is
already terminal (`error` or `success`) return without touching anything;
otherwise record the resolution.  The `onTxUpdate` notification and the
follow-up `checkSendTx()` do not modify existing statuses. -/
def cbk (processedTxs : List TxRecord) (txId : Nat) (hasErr : Bool) : List TxRecord :=
  match processedTxs.findIdx? (fun r => r.txId == txId) with
  | none => processedTxs
  | some idx =>
    match processedTxs[idx]? with
    | none => processedTxs
    | some r =>
      if r.status = TxStatus.error ∨ r.status = TxStatus.success then processedTxs
      else processedTxs.set idx ⟨r.txId, if hasErr then TxStatus.error else TxStatus.success⟩

/-- C8: once a transaction's recorded status is terminal (`success` or
`error`), no later confirmation resolution — push subscription or polling
loop, both of which resolve through `cbk` — changes that record: the
terminal-status guard returns early and `List.set` touches no other
index. -/
theorem claim_C8 (processedTxs : List TxRecord) (txId : Nat) (hasErr : Bool)
    (j : Nat) (r : TxRecord) (hj : processedTxs[j]? = some r)
    (hterm : r.status = TxStatus.success ∨ r.status = TxStatus.error) :
    (cbk processedTxs txId hasErr)[j]? = some r := by
  unfold cbk
  cases hidx : processedTxs.findIdx? (fun t => t.txId == txId) with
  | none => exact hj
  | some idx =>
    dsimp only
    cases hr : processedTxs[idx]? with
    | none => exact hj
    | some r0 =>
      dsimp only
      by_cases hterm0 : r0.status = TxStatus.error ∨ r0.status = TxStatus.success
      · rw [if_pos hterm0]
        exact hj
      · rw [if_neg hterm0]
        by_cases hij : idx = j
        · subst hij
          rw [hr] at hj
          injection hj with hj
          subst hj
          tauto
        · rw [List.getElem?_set_ne hij]
          exact hj

/-- C8 witness: resolving a transaction whose record is already `success`
with an error result leaves the record unchanged. -/
theorem claim_C8_witness :
    (cbk [⟨5, TxStatus.success⟩] 5 true)[0]? = some ⟨5, TxStatus.success⟩ :=
  claim_C8 [⟨5, TxStatus.success⟩] 5 true 0 ⟨5, TxStatus.success⟩ rfl (Or.inl rfl)
